import Mathlib

/-!
Verification of the ghost-storage specification against a shallow embedding of
the repository source file src/bp/core/services/ghost/disk-driver.ts
(class DiskStorageDriver).

Modelling conventions:
- A physical location is a list of path segments counted from the filesystem
  root, so the list is always an absolute path.  Logical paths handed to the
  driver stay plain strings, exactly as in the source, and are split on the
  slash character with the same semantics as the Node.js posix path functions.
- The process state (the fixed process.PROJECT_LOCATION base, the working
  directory used by path.relative and by the tar and glob cwd options, the
  file tree, directory permissions, and an injected glob fault) is gathered in
  one structure FS.  File contents are binary-safe payloads; a JSON revision
  ledger document and a gzipped tar archive are represented by their decoded
  values, the standard abstraction for an external codec.
- Asynchronous methods become functions returning Except JsError; a rejected
  promise is the error case.  Where the source returns a promise from inside a
  try block without awaiting it, the rejection bypasses the catch handler, and
  the embedding reproduces that (see readFile below).
-/

namespace DiskDriver

/-- Splits a character list at every slash, keeping empty pieces, with the
semantics of the JavaScript string split on a slash. -/
def splitRaw : List Char → List (List Char)
  | [] => [[]]
  | c :: cs =>
    if c = '/' then [] :: splitRaw cs
    else (c :: (splitRaw cs).headD []) :: (splitRaw cs).tail

/-- Path segments of a string: the slash-separated pieces with empty pieces
dropped, as the Node path functions do when resolving. -/
def segsOf (s : String) : List String :=
  ((splitRaw s.data).map (fun g => String.mk g)).filter (fun t => !(t == ""))

/-- Joins character groups with slashes (inverse direction of splitRaw). -/
def joinCh : List (List Char) → List Char
  | [] => []
  | [g] => g
  | g :: g' :: gs => g ++ '/' :: joinCh (g' :: gs)

/-- Joins path segments with forward slashes.  Listings returned by the driver
are always forward-slash joined (forceForwardSlashes is the identity here). -/
def joinSegs (l : List String) : String :=
  String.mk (joinCh (l.map String.data))

/-- Last slash-separated component of a path string (Node path.basename on the
relative strings the driver manipulates). -/
def basenameStr (s : String) : String :=
  String.mk ((s.data.reverse.takeWhile (fun c => !(c == '/'))).reverse)

/-- Everything before the last slash (Node path.dirname on relative strings;
a string without a slash has dirname "."). -/
def dirnameStr (s : String) : String :=
  if (s.data.reverse.dropWhile (fun c => !(c == '/'))).isEmpty then "."
  else String.mk ((s.data.reverse.dropWhile (fun c => !(c == '/'))).tail.reverse)

/-- First slash-separated component of a string, the JavaScript expression
f.split('/')[0] used by _getBaseDirectories. -/
def firstSegStr (s : String) : String :=
  String.mk (s.data.takeWhile (fun c => !(c == '/')))

/-- Whether a path string is absolute (starts with a slash). -/
def isAbsolute (s : String) : Bool :=
  match s.data with
  | [] => false
  | c :: _ => c == '/'

/-- One normalization step of Node path resolution: a dot segment is dropped, a
dot-dot segment pops the accumulator (and is dropped at the root), any other
segment is appended. -/
def normStep (acc : List String) (seg : String) : List String :=
  if seg == "." then acc
  else if seg == ".." then acc.dropLast
  else acc ++ [seg]

/-- Normalizes an absolute segment list, resolving dot and dot-dot segments
exactly as Node path.resolve does once the path is anchored at the root. -/
def normAbs (l : List String) : List String := l.foldl normStep []

/-- Node path.resolve(base, p) for an absolute base: an absolute p replaces the
base, otherwise p is appended to it; the result is normalized. -/
def resolveFrom (base : List String) (p : String) : List String :=
  if isAbsolute p then normAbs (segsOf p) else normAbs (base ++ segsOf p)

/-- Length of the longest common segment prefix of two locations. -/
def commonPrefixLen : List String → List String → Nat
  | a :: as, b :: bs => if a == b then commonPrefixLen as bs + 1 else 0
  | _, _ => 0

/-- All nonempty ancestor locations of a location, itself included; these are
the directories fse.mkdirp creates. -/
def prefixesOf (p : List String) : List (List String) :=
  (List.range p.length).map (fun n => p.take (n + 1))

/-- Modelled from the spec: the FileRevision record declared in the ghost
module index (which is not under src/): a path, a revision id, a timestamp and
an optional author. -/
structure FileRevision where
  path : String
  revisionId : String
  timestamp : Nat
  author : Option String
deriving DecidableEq

/-- Content of a file on disk.  Raw payloads are byte lists; a JSON revision
ledger document and a gzipped tar archive are represented by their decoded
values (the codecs are external to the driver, so a document is identified
with what it deserializes to, and any other content fails to parse). -/
inductive Content where
  | bytes (data : List Nat)
  | jsonRevisions (revs : List FileRevision)
  | tarball (entries : List (String × Content))

/-- Errors a driver promise can reject with: a raw Node filesystem error
carrying an e.code string, a plain new Error with a message, or a VError
wrapping a cause with a message. -/
inductive JsError where
  | fsError (code : String)
  | simpleError (message : String)
  | verror (cause : JsError) (message : String)
deriving DecidableEq

/-- Process and filesystem state seen by the driver: the global
process.PROJECT_LOCATION (as resolved segments), the process working directory
(used by path.relative and the glob and tar cwd handling), the file tree, the
known directories, the directories that exist but cannot be read (fse.access
fails with EACCES on them), and an injected glob fault used to model a failing
glob evaluation. -/
structure FS where
  projectLocation : List String
  cwd : List String
  files : List (List String × Content)
  dirs : List (List String)
  unreadableDirs : List (List String)
  globError : Bool

/-- Content stored at a location, if any. -/
def lookupFile (files : List (List String × Content)) (p : List String) : Option Content :=
  match files.find? (fun kv => kv.1 == p) with
  | some kv => some kv.2
  | none => none

/-- Overwriting write of one file (fse.writeFile). -/
def writeF (p : List String) (c : Content) (files : List (List String × Content)) :
    List (List String × Content) :=
  (p, c) :: files.filter (fun kv => !(kv.1 == p))

/-- Whether a directory exists: it was created explicitly or some file lives
strictly below it. -/
def dirExists (fs : FS) (d : List String) : Bool :=
  fs.dirs.contains d || fs.files.any (fun kv => !(kv.1 == d) && d.isPrefixOf kv.1)

/-- Location of a file relative to a base directory, when the file is under
the base (how glob with a cwd option sees the tree). -/
def relUnder (base p : List String) : Option (List String) :=
  if base.isPrefixOf p then some (p.drop base.length) else none

/-- Whether a segment starts with a dot. -/
def startsWithDot (t : String) : Bool :=
  match t.data with
  | c :: _ => c == '.'
  | [] => false

/-- Whether a segment contains a dot somewhere. -/
def containsDot (t : String) : Bool := t.data.contains '.'

/-- JavaScript toLowerCase, modelled over the character list (each character
lowercased individually, which is what the marker comparison relies on). -/
def toLowerStr (s : String) : String := String.mk (s.data.map Char.toLower)

/-- Minimatch semantics of the pattern **/*.* on a relative location: the name
component must contain a dot, and unless the dot option is set no traversed
component and not the name may start with a dot. -/
def globMatch (dot : Bool) (rel : List String) : Bool :=
  match rel.getLast? with
  | none => false
  | some name =>
    (rel.dropLast.all (fun t => dot || !(startsWithDot t))) &&
    (dot || !(startsWithDot name)) && containsDot name

/-- One file as seen by glob: its matching relative location under the base,
forward-slash joined, or nothing when it lies outside the base or fails the
pattern. -/
def globFile (base : List String) (dot : Bool) (kv : List String × Content) :
    Option String :=
  match relUnder base kv.1 with
  | some rel => if globMatch dot rel then some (joinSegs rel) else none
  | none => none

/-- Files produced by glob('**/*.*', cwd, dot) : every file under the base
whose relative location matches the pattern, forward-slash joined. -/
def globListing (fs : FS) (base : List String) (dot : Bool) : List String :=
  fs.files.filterMap (globFile base dot)

/-- The resolvePath field of the class: path.resolve(process.PROJECT_LOCATION, p). -/
def resolvePath (fs : FS) (p : String) : List String :=
  resolveFrom fs.projectLocation p

/-- Raw fse.readFile at a resolved location: the content, or a rejection with
the raw ENOENT filesystem error when no file is there. -/
def fsRead (fs : FS) (p : List String) : Except JsError Content :=
  match lookupFile fs.files p with
  | some c => Except.ok c
  | none => Except.error (JsError.fsError "ENOENT")

/-- The error mapping written in the catch block of readFile: an ENOENT code
becomes the plain not-found Error, anything else is wrapped in a VError. -/
def readFileOnError (filePath : String) (e : JsError) : JsError :=
  match e with
  | JsError.fsError code =>
    if code == "ENOENT" then
      JsError.simpleError ("[Disk Storage] File \"" ++ filePath ++ "\" not found")
    else JsError.verror e ("[Disk Storage] Error reading file \"" ++ filePath ++ "\"")
  | _ => JsError.verror e ("[Disk Storage] Error reading file \"" ++ filePath ++ "\"")

/-- readFile as the source executes: the try block returns the fse.readFile
promise without awaiting it, so a rejection propagates to the caller after the
try/catch frame is gone and the catch block never runs (no synchronous throw
is possible for a string argument).  The caller therefore observes the raw
filesystem error. -/
def readFile (fs : FS) (filePath : String) : Except JsError Content :=
  fsRead fs (resolvePath fs filePath)

/-- readFile as the surrounding catch block documents it, that is, what the
method would return had the promise been awaited inside the try block. -/
def readFileIntended (fs : FS) (filePath : String) : Except JsError Content :=
  match fsRead fs (resolvePath fs filePath) with
  | Except.ok c => Except.ok c
  | Except.error e => Except.error (readFileOnError filePath e)

/-- upsertFile: resolves the path, creates the missing ancestor directories of
its dirname with fse.mkdirp, then writes the content.  The recordRevision
parameter is accepted by the overload signature but never used in the body, so
it is ignored here as well. -/
def upsertFile (fs : FS) (filePath : String) (content : Content)
    (recordRevision : Bool) : FS :=
  { fs with
    dirs := prefixesOf (resolvePath fs filePath).dropLast ++ fs.dirs
    files := writeF (resolvePath fs filePath) content fs.files }

/-- directoryListing: fse.access on the resolved folder first (a missing
folder returns an empty listing, an unreadable one rejects with the VError
that wraps the access failure), then glob('**/*.*') with the dot option; a
glob failure is swallowed into an empty listing.  The optional exclude
patterns of the source are not exercised by any verified property and the
callers under proof pass none, so the parameter is omitted. -/
def directoryListing (fs : FS) (folder : String) (includeDotFiles : Bool) :
    Except JsError (List String) :=
  if dirExists fs (resolveFrom fs.projectLocation folder) then
    if fs.unreadableDirs.contains (resolveFrom fs.projectLocation folder) then
      Except.error (JsError.verror (JsError.fsError "EACCES")
        ("[Disk Storage] No read access to directory \"" ++ folder ++ "\""))
    else if fs.globError then Except.ok []
    else Except.ok (globListing fs (resolveFrom fs.projectLocation folder) includeDotFiles)
  else Except.ok []

/-- deleteRevision: the source throws new Error('Method not implemented.')
before touching any state, so the state is returned unchanged next to the
rejection. -/
def deleteRevision (fs : FS) (filePath revision : String) : FS × Except JsError Unit :=
  (fs, Except.error (JsError.simpleError "Method not implemented."))

/-- Node path.join of a prefix with the ledger file name; the paths under
proof are clean so the join is plain concatenation with a slash. -/
def pathJoinStr (a b : String) : String := a ++ "/" ++ b

/-- Modelled from the spec: JSON.parse of a ledger document.  A document is
represented by its decoded value, so parsing succeeds exactly on a revision
ledger document and fails on any other content. -/
def jsonParseRevisions (c : Content) : Option (List FileRevision) :=
  match c with
  | Content.jsonRevisions revs => some revs
  | _ => none

/-- listRevisions: reads prefix/revisions.json through this.readFile and
deserializes it; the awaited try/catch turns any read or parse failure into an
empty listing. -/
def listRevisions (fs : FS) (pathPrefix : String) : List FileRevision :=
  match readFile fs (pathJoinStr pathPrefix "revisions.json") with
  | Except.error _ => []
  | Except.ok c =>
    match jsonParseRevisions c with
    | some revs => revs
    | none => []

/-- Lodash uniq: duplicates removed, first occurrences kept in order. -/
def uniqKeepFirst : List String → List String
  | [] => []
  | x :: xs => x :: (uniqKeepFirst xs).filter (fun y => !(y == x))

/-- Lodash without: the first list with every member of the second removed. -/
def without (arr values : List String) : List String :=
  arr.filter (fun x => !(values.contains x))

/-- path.relative(process.PROJECT_LOCATION, f) as executed by the source: f is
resolved against the working directory, the common prefix with the project
location is stripped, and dot-dot segments climb the remainder. -/
def relativeFromPL (fs : FS) (toS : String) : String :=
  joinSegs
    (List.replicate
      (fs.projectLocation.length -
        commonPrefixLen fs.projectLocation (resolveFrom fs.cwd toS)) ".." ++
      (resolveFrom fs.cwd toS).drop
        (commonPrefixLen fs.projectLocation (resolveFrom fs.cwd toS)))

/-- The private _getBaseDirectories helper: each listed file is mapped through
path.relative from the project location, then path.dirname, then the first
slash-separated piece, and the results are deduplicated. -/
def getBaseDirectories (fs : FS) (files : List String) : List String :=
  uniqKeepFirst
    (((files.map (fun f => relativeFromPL fs f)).map dirnameStr).map firstSegStr)

/-- discoverTrackableFolders: lists everything under the base directory with
dot files included, takes the top-level directory names, removes those owning
a file whose base name lowercases to .noghost, and returns an empty list if
the listing failed. -/
def discoverTrackableFolders (fs : FS) (baseDir : String) : List String :=
  match directoryListing fs baseDir true with
  | Except.error _ => []
  | Except.ok allFiles =>
    without (getBaseDirectories fs allFiles)
      (getBaseDirectories fs
        (allFiles.filter (fun x => toLowerStr (basenameStr x) == ".noghost")))

/-- Sources of an archive: each listed path is read relative to the tar cwd
(the folder argument); a missing source makes tar.create reject. -/
def collectEntries (fs : FS) (folderR : List String) :
    List String → Option (List (String × Content))
  | [] => some []
  | p :: ps =>
    match lookupFile fs.files (resolveFrom folderR p) with
    | none => none
    | some c =>
      match collectEntries fs folderR ps with
      | none => none
      | some rest => some ((p, c) :: rest)

/-- createArchive: tar.create with cwd the folder, writing the portable
gzipped archive to fileName (resolved against the working directory) and
returning fileName; a failure is wrapped in a VError. -/
def createArchive (fs : FS) (fileName folder : String) (files : List String) :
    Except JsError (FS × String) :=
  match collectEntries fs (resolveFrom fs.cwd folder) files with
  | none =>
    Except.error (JsError.verror (JsError.fsError "ENOENT")
      ("[Disk Storage] Error creating archive \"" ++ fileName ++ "\""))
  | some entries =>
    Except.ok
      ({ fs with
          files := writeF (resolveFrom fs.cwd fileName)
            (Content.tarball entries) fs.files }, fileName)

/-- One tar entry unpacked under the destination, ancestors created. -/
def writeEntry (destR : List String) (fs : FS) (e : String × Content) : FS :=
  { fs with
    files := writeF (resolveFrom destR e.1) e.2 fs.files
    dirs := prefixesOf (resolveFrom destR e.1).dropLast ++ fs.dirs }

/-- extractArchive: the destination directory is created if absent, the
archive is unpacked synchronously in strict mode (a buffer that is not a valid
archive rejects the whole operation), and the extracted files are re-listed
with glob('**/*.*', cwd destination) without the dot option. -/
def extractArchive (fs : FS) (archive : Content) (destination : String) :
    Except JsError (FS × List String) :=
  match archive with
  | Content.tarball entries =>
    Except.ok
      (entries.foldl (writeEntry (resolveFrom fs.cwd destination))
        { fs with dirs := resolveFrom fs.cwd destination :: fs.dirs },
       globListing
         (entries.foldl (writeEntry (resolveFrom fs.cwd destination))
           { fs with dirs := resolveFrom fs.cwd destination :: fs.dirs })
         (resolveFrom fs.cwd destination) false)
  | _ => Except.error (JsError.simpleError "[Disk Storage] Invalid or corrupted archive")

/-- Well-formed segment list: segments are nonempty and slash-free, the regime
in which slash-joined strings split back to the same segments. -/
def WFsegs (l : List String) : Prop := ∀ t ∈ l, ¬ t = "" ∧ '/' ∉ t.data

instance (l : List String) : Decidable (WFsegs l) :=
  inferInstanceAs (Decidable (∀ t ∈ l, ¬ t = "" ∧ '/' ∉ t.data))

/-- Empty store rooted at home/proj, with the working directory at the project
location, the standard runtime configuration. -/
def fs0 : FS :=
  { projectLocation := ["home", "proj"]
    cwd := ["home", "proj"]
    files := []
    dirs := [["home", "proj"]]
    unreadableDirs := []
    globError := false }

/-- Sample revision entry used by the ledger checks. -/
def rev0 : FileRevision :=
  { path := "bots/b1/f.txt", revisionId := "r1", timestamp := 0, author := none }

/-- Store holding one well-formed revision ledger under bots/b1. -/
def fsLedger : FS :=
  { fs0 with
    files := [(["home", "proj", "bots", "b1", "revisions.json"],
      Content.jsonRevisions [rev0])] }

/-- Store with a directory that exists but cannot be read. -/
def fsUnreadable : FS :=
  { fs0 with
    files := [(["home", "proj", "locked", "a.txt"], Content.bytes [0])]
    unreadableDirs := [["home", "proj", "locked"]] }

/-- Store with one extensionless file and one dotted file under d. -/
def fsX : FS :=
  { fs0 with
    files := [(["home", "proj", "d", "noext"], Content.bytes [1]),
      (["home", "proj", "d", "y.txt"], Content.bytes [2])] }

/-- Store for the trackable-folder discovery claim: two ordinary files and an
opt-out marker file named m placed at an arbitrary depth sub below the
top-level directory b. -/
def fsC4 (sub : List String) (m : String) (c1 c2 c3 : Content) : FS :=
  { projectLocation := ["home", "proj"]
    cwd := ["home", "proj"]
    files :=
      [ (["home", "proj", "data", "a", "x.txt"], c1),
        (["home", "proj", "data", "b", "y.txt"], c2),
        (["home", "proj", "data", "b"] ++ sub ++ [m], c3) ]
    dirs := []
    unreadableDirs := []
    globError := false }

/-- Store for the archive round-trip counterexample: an extensionless file and
a dotted file under srcf. -/
def fsC7 : FS :=
  { fs0 with
    files := [(["home", "proj", "srcf", "noext"], Content.bytes [1]),
      (["home", "proj", "srcf", "y.txt"], Content.bytes [2])] }

/-- Store for the archive round-trip witness: two dotted files under srcf. -/
def fsC7w : FS :=
  { fs0 with
    files := [(["home", "proj", "srcf", "a", "x.txt"], Content.bytes [3]),
      (["home", "proj", "srcf", "y.txt"], Content.bytes [4])] }

/-- End-to-end archive round trip on fsC7: create the archive of the two
files, read the archive file back from disk, extract it into dest, and return
the listing extractArchive reports (none on any failure along the way). -/
def c7result : Option (List String) :=
  match createArchive fsC7 "arch.tgz" "srcf" ["noext", "y.txt"] with
  | Except.error _ => none
  | Except.ok (fs1, name) =>
    match lookupFile fs1.files (resolveFrom fs1.cwd name) with
    | none => none
    | some a =>
      match extractArchive fs1 a "dest" with
      | Except.error _ => none
      | Except.ok (_, listing) => some listing

theorem mk_data (s : String) : String.mk s.data = s := rfl

theorem splitRaw_ne_nil (l : List Char) : splitRaw l ≠ [] := by
  cases l with
  | nil => simp [splitRaw]
  | cons c cs =>
    simp only [splitRaw]
    split <;> simp

theorem splitRaw_append_no_slash (g t : List Char) (h : '/' ∉ g) :
    splitRaw (g ++ t) = (g ++ (splitRaw t).headD []) :: (splitRaw t).tail := by
  induction g with
  | nil =>
    simp only [List.nil_append]
    cases hs : splitRaw t with
    | nil => exact absurd hs (splitRaw_ne_nil t)
    | cons a as => simp
  | cons c g ih =>
    have hc : ¬ c = '/' := fun hc => h (by rw [hc]; exact List.mem_cons_self _ _)
    have hg : '/' ∉ g := fun hg => h (List.mem_cons_of_mem _ hg)
    show splitRaw (c :: (g ++ t)) = _
    rw [show splitRaw (c :: (g ++ t))
        = if c = '/' then [] :: splitRaw (g ++ t)
          else (c :: (splitRaw (g ++ t)).headD []) :: (splitRaw (g ++ t)).tail from rfl,
      if_neg hc, ih hg]
    simp

theorem splitRaw_no_slash (g : List Char) (h : '/' ∉ g) : splitRaw g = [g] := by
  have := splitRaw_append_no_slash g [] h
  simpa [splitRaw] using this

theorem splitRaw_slash (t : List Char) : splitRaw ('/' :: t) = [] :: splitRaw t := by
  simp [splitRaw]

theorem splitRaw_joinCh (gs : List (List Char)) (hne : gs ≠ [])
    (h : ∀ g ∈ gs, '/' ∉ g) : splitRaw (joinCh gs) = gs := by
  induction gs with
  | nil => exact absurd rfl hne
  | cons g gs ih =>
    cases gs with
    | nil => simpa [joinCh] using splitRaw_no_slash g (h g (List.mem_cons_self _ _))
    | cons g' gs' =>
      have hg : '/' ∉ g := h g (List.mem_cons_self _ _)
      have ihr := ih (by simp) (fun x hx => h x (List.mem_cons_of_mem _ hx))
      rw [show joinCh (g :: g' :: gs') = g ++ '/' :: joinCh (g' :: gs') from rfl,
        splitRaw_append_no_slash g _ hg, splitRaw_slash, ihr]
      simp

theorem segsOf_joinSegs (l : List String) (h : WFsegs l) : segsOf (joinSegs l) = l := by
  cases l with
  | nil => rfl
  | cons x l =>
    unfold segsOf joinSegs
    rw [show (String.mk (joinCh ((x :: l).map String.data))).data
        = joinCh ((x :: l).map String.data) from rfl]
    rw [splitRaw_joinCh _ (by simp)
      (fun g hg => by
        obtain ⟨t, ht, rfl⟩ := List.mem_map.mp hg
        exact (h t ht).2)]
    have hmap : ((x :: l).map String.data).map (fun g => String.mk g) = x :: l := by
      rw [List.map_map,
        show ((fun g => String.mk g) ∘ String.data) = id from funext (fun t => rfl),
        List.map_id]
    rw [hmap]
    apply List.filter_eq_self.mpr
    intro t ht
    simp [beq_eq_false_iff_ne.mpr (h t ht).1]

theorem joinSegs_inj {a b : List String} (ha : WFsegs a) (hb : WFsegs b)
    (h : joinSegs a = joinSegs b) : a = b := by
  rw [← segsOf_joinSegs a ha, ← segsOf_joinSegs b hb, h]

theorem joinSegs_single (t : String) : joinSegs [t] = t := rfl

theorem data_joinSegs_cons (t : String) (l : List String) (h : l ≠ []) :
    (joinSegs (t :: l)).data = t.data ++ '/' :: (joinSegs l).data := by
  cases l with
  | nil => exact absurd rfl h
  | cons a as => rfl

theorem data_joinSegs_append (l m : List String) (hl : l ≠ []) (hm : m ≠ []) :
    (joinSegs (l ++ m)).data = (joinSegs l).data ++ '/' :: (joinSegs m).data := by
  induction l with
  | nil => exact absurd rfl hl
  | cons t l ih =>
    cases l with
    | nil => simpa using data_joinSegs_cons t m hm
    | cons b bs =>
      rw [List.cons_append, data_joinSegs_cons t ((b :: bs) ++ m) (by simp),
        ih (by simp), data_joinSegs_cons t (b :: bs) (by simp)]
      simp

theorem takeWhile_append_all {α} (p : α → Bool) (a b : List α)
    (h : ∀ x ∈ a, p x = true) : (a ++ b).takeWhile p = a ++ b.takeWhile p := by
  induction a with
  | nil => simp
  | cons x a ih =>
    have hx := h x (List.mem_cons_self _ _)
    simp [List.takeWhile_cons, hx, ih (fun y hy => h y (List.mem_cons_of_mem _ hy))]

theorem takeWhile_all {α} (p : α → Bool) (a : List α) (h : ∀ x ∈ a, p x = true) :
    a.takeWhile p = a := by
  simpa using takeWhile_append_all p a [] h

theorem takeWhile_append_stop {α} (p : α → Bool) (a : List α) (c : α) (b : List α)
    (hc : p c = false) : (a ++ c :: b).takeWhile p = a.takeWhile p := by
  induction a with
  | nil => simp [List.takeWhile_cons, hc]
  | cons x a ih =>
    cases hpx : p x with
    | true => simp [List.takeWhile_cons, hpx, ih]
    | false => simp [List.takeWhile_cons, hpx]

theorem dropWhile_append_all {α} (p : α → Bool) (a b : List α)
    (h : ∀ x ∈ a, p x = true) : (a ++ b).dropWhile p = b.dropWhile p := by
  induction a with
  | nil => simp
  | cons x a ih =>
    have hx := h x (List.mem_cons_self _ _)
    simp [List.dropWhile_cons, hx, ih (fun y hy => h y (List.mem_cons_of_mem _ hy))]

theorem no_slash_all (x : String) (hx : '/' ∉ x.data) :
    ∀ c ∈ x.data, (!(c == '/')) = true := by
  intro c hc
  have : ¬ c = '/' := fun h => hx (h ▸ hc)
  simp [this]

theorem no_slash_all_rev (x : String) (hx : '/' ∉ x.data) :
    ∀ c ∈ x.data.reverse, (!(c == '/')) = true :=
  fun c hc => no_slash_all x hx c (List.mem_reverse.mp hc)

theorem basenameStr_join (l : List String) (x : String) (hx : '/' ∉ x.data) :
    basenameStr (joinSegs (l ++ [x])) = x := by
  induction l with
  | nil =>
    show basenameStr (joinSegs [x]) = x
    unfold basenameStr
    rw [joinSegs_single, takeWhile_all _ _ (no_slash_all_rev x hx), List.reverse_reverse]
  | cons t l ih =>
    have h1 : (joinSegs (t :: (l ++ [x]))).data
        = t.data ++ '/' :: (joinSegs (l ++ [x])).data :=
      data_joinSegs_cons t (l ++ [x]) (by simp)
    unfold basenameStr at ih ⊢
    rw [List.cons_append, h1, List.reverse_append, List.reverse_cons, List.append_assoc,
      List.singleton_append, takeWhile_append_stop _ _ '/' _ (by simp)]
    exact ih

theorem dirnameStr_join (l : List String) (x : String) (hl : l ≠ [])
    (hx : '/' ∉ x.data) : dirnameStr (joinSegs (l ++ [x])) = joinSegs l := by
  have h1 : (joinSegs (l ++ [x])).data = (joinSegs l).data ++ '/' :: x.data :=
    data_joinSegs_append l [x] hl (by simp)
  unfold dirnameStr
  rw [h1, List.reverse_append, List.reverse_cons, List.append_assoc,
    List.singleton_append, dropWhile_append_all _ _ _ (no_slash_all_rev x hx),
    List.dropWhile_cons]
  simp [mk_data]

theorem firstSegStr_join (x : String) (l : List String) (hx : '/' ∉ x.data) :
    firstSegStr (joinSegs (x :: l)) = x := by
  cases l with
  | nil =>
    unfold firstSegStr
    rw [joinSegs_single, takeWhile_all _ _ (no_slash_all x hx)]
  | cons b bs =>
    unfold firstSegStr
    rw [data_joinSegs_cons x (b :: bs) (by simp)]
    rw [takeWhile_append_stop _ x.data '/' _ (by simp)]
    rw [takeWhile_all _ _ (no_slash_all x hx)]

theorem string_ne_empty_of_data (x : String) (hd : x.data ≠ []) : ¬ x = "" :=
  fun h => hd (by rw [h])

theorem data_ne_empty_of_string (x : String) (hne : ¬ x = "") : x.data ≠ [] := by
  intro hd
  exact hne (by have := congrArg (fun l => String.mk l) hd; simpa [mk_data] using this)

theorem isAbsolute_joinSegs (x : String) (l : List String) (hne : ¬ x = "")
    (hx : '/' ∉ x.data) : isAbsolute (joinSegs (x :: l)) = false := by
  cases l with
  | nil =>
    rw [joinSegs_single]
    unfold isAbsolute
    cases hd : x.data with
    | nil => exact absurd hd (data_ne_empty_of_string x hne)
    | cons c cs =>
      have : ¬ c = '/' := fun h => hx (by rw [hd, h]; exact List.mem_cons_self _ _)
      simp [this]
  | cons b bs =>
    unfold isAbsolute
    rw [data_joinSegs_cons x (b :: bs) (by simp)]
    cases hd : x.data with
    | nil => exact absurd hd (data_ne_empty_of_string x hne)
    | cons c cs =>
      have : ¬ c = '/' := fun h => hx (by rw [hd, h]; exact List.mem_cons_self _ _)
      simp [this]

theorem foldl_normStep_clean (l : List String) (h : ∀ t ∈ l, ¬ t = "..") :
    ∀ acc, l.foldl normStep acc = acc ++ l.filter (fun t => !(t == ".")) := by
  induction l with
  | nil => intro acc; simp
  | cons t l ih =>
    intro acc
    have ht : ¬ t = ".." := h t (List.mem_cons_self _ _)
    have hl : ∀ u ∈ l, ¬ u = ".." := fun u hu => h u (List.mem_cons_of_mem _ hu)
    by_cases hdot : t = "."
    · subst hdot
      simp [List.foldl_cons, normStep, ih hl, List.filter_cons]
    · have hb : (t == ".") = false := beq_eq_false_iff_ne.mpr hdot
      have hb2 : (t == "..") = false := beq_eq_false_iff_ne.mpr ht
      simp [List.foldl_cons, normStep, hb, hb2, ih hl, List.filter_cons]

theorem foldl_normStep_no_dots (l : List String) :
    ∀ acc, (∀ t ∈ acc, ¬ t = "." ∧ ¬ t = "..") →
      ∀ t ∈ l.foldl normStep acc, ¬ t = "." ∧ ¬ t = ".." := by
  induction l with
  | nil => intro acc hacc; simpa using hacc
  | cons s l ih =>
    intro acc hacc
    rw [List.foldl_cons]
    apply ih
    intro t ht
    unfold normStep at ht
    by_cases h1 : (s == ".") = true
    · rw [if_pos h1] at ht; exact hacc t ht
    · rw [if_neg h1] at ht
      by_cases h2 : (s == "..") = true
      · rw [if_pos h2] at ht; exact hacc t (List.dropLast_subset _ ht)
      · rw [if_neg h2] at ht
        rcases List.mem_append.mp ht with hm | hm
        · exact hacc t hm
        · simp only [List.mem_singleton] at hm
          subst hm
          constructor
          · intro hh; rw [hh] at h1; exact h1 (beq_self_eq_true _)
          · intro hh; rw [hh] at h2; exact h2 (beq_self_eq_true _)

theorem normAbs_no_dots (l : List String) :
    ∀ t ∈ normAbs l, ¬ t = "." ∧ ¬ t = ".." :=
  foldl_normStep_no_dots l [] (by simp)

theorem mem_foldl_normStep (l : List String) :
    ∀ acc t, t ∈ l.foldl normStep acc → t ∈ acc ∨ t ∈ l := by
  induction l with
  | nil => intro acc t ht; exact Or.inl ht
  | cons s l ih =>
    intro acc t ht
    rw [List.foldl_cons] at ht
    rcases ih (normStep acc s) t ht with hm | hm
    · unfold normStep at hm
      by_cases h1 : (s == ".") = true
      · rw [if_pos h1] at hm; exact Or.inl hm
      · rw [if_neg h1] at hm
        by_cases h2 : (s == "..") = true
        · rw [if_pos h2] at hm; exact Or.inl (List.dropLast_subset _ hm)
        · rw [if_neg h2] at hm
          rcases List.mem_append.mp hm with hm' | hm'
          · exact Or.inl hm'
          · simp only [List.mem_singleton] at hm'
            subst hm'
            exact Or.inr (List.mem_cons_self _ _)
    · exact Or.inr (List.mem_cons_of_mem _ hm)

theorem mem_normAbs {l : List String} {t : String} (h : t ∈ normAbs l) : t ∈ l := by
  rcases mem_foldl_normStep l [] t h with hm | hm
  · cases hm
  · exact hm

theorem normAbs_idem (l : List String) : normAbs (normAbs l) = normAbs l := by
  have h := normAbs_no_dots l
  have h2 : normAbs l = [] ++ (normAbs l).filter (fun t => !(t == ".")) := by
    rw [List.nil_append]
    symm
    apply List.filter_eq_self.mpr
    intro t ht
    simp [beq_eq_false_iff_ne.mpr (h t ht).1]
  calc normAbs (normAbs l)
      = [] ++ (normAbs l).filter (fun t => !(t == ".")) :=
        foldl_normStep_clean (normAbs l) (fun t ht => (h t ht).2) []
    _ = normAbs l := h2.symm

theorem resolveFrom_no_dotdot (base : List String) (p : String)
    (hb : normAbs base = base) (h1 : isAbsolute p = false)
    (h2 : ∀ t ∈ segsOf p, ¬ t = "..") :
    resolveFrom base p = base ++ (segsOf p).filter (fun t => !(t == ".")) := by
  unfold resolveFrom
  rw [if_neg (by simp [h1])]
  unfold normAbs
  rw [List.foldl_append]
  have hbase : base.foldl normStep [] = base := hb
  rw [hbase, foldl_normStep_clean (segsOf p) h2 base]

theorem resolveFrom_clean (base : List String) (p : String)
    (hb : normAbs base = base) (h1 : isAbsolute p = false)
    (h2 : ∀ t ∈ segsOf p, ¬ t = "." ∧ ¬ t = "..") :
    resolveFrom base p = base ++ segsOf p := by
  rw [resolveFrom_no_dotdot base p hb h1 (fun t ht => (h2 t ht).2)]
  congr 1
  apply List.filter_eq_self.mpr
  intro t ht
  simp [beq_eq_false_iff_ne.mpr (h2 t ht).1]

theorem normAbs_resolveFrom (base : List String) (p : String) :
    normAbs (resolveFrom base p) = resolveFrom base p := by
  unfold resolveFrom
  by_cases h : isAbsolute p = true
  · rw [if_pos h]; exact normAbs_idem _
  · rw [if_neg h]; exact normAbs_idem _

theorem commonPrefixLen_append (l r : List String) :
    commonPrefixLen l (l ++ r) = l.length := by
  induction l with
  | nil => cases r <;> rfl
  | cons a as ih => simp [commonPrefixLen, ih]

theorem isPrefixOf_append (l r : List String) : l.isPrefixOf (l ++ r) = true := by
  induction l with
  | nil => simp
  | cons a as ih => simp [List.isPrefixOf_cons₂, ih]

theorem relUnder_append (base r : List String) : relUnder base (base ++ r) = some r := by
  unfold relUnder
  rw [if_pos (by simp [isPrefixOf_append])]
  rw [List.drop_left]

theorem relUnder_some {base p rel : List String} (h : relUnder base p = some rel) :
    rel = p.drop base.length ∧ base.isPrefixOf p = true := by
  unfold relUnder at h
  by_cases hb : base.isPrefixOf p = true
  · rw [if_pos hb] at h
    exact ⟨(Option.some.inj h).symm, hb⟩
  · rw [if_neg hb] at h
    cases h

theorem contains_of_mem {α} [BEq α] [LawfulBEq α] {a : α} {l : List α} (h : a ∈ l) :
    l.contains a = true :=
  List.elem_eq_true_of_mem h

theorem lookup_writeF_same (p : List String) (c : Content)
    (files : List (List String × Content)) :
    lookupFile (writeF p c files) p = some c := by
  unfold lookupFile writeF
  simp [List.find?_cons]

theorem find?_filter_ne (p q : List String) (files : List (List String × Content))
    (hpq : (p == q) = false) :
    List.find? (fun kv : List String × Content => kv.1 == q)
      (files.filter (fun kv => !(kv.1 == p)))
    = List.find? (fun kv => kv.1 == q) files := by
  induction files with
  | nil => rfl
  | cons kv fs ih =>
    cases hk : (kv.1 == p) with
    | true =>
      have hkq : (kv.1 == q) = false := by rw [eq_of_beq hk]; exact hpq
      rw [List.filter_cons, if_neg (by simp [hk]), ih,
        List.find?_cons, hkq]
    | false =>
      rw [List.filter_cons, if_pos (by simp [hk]), List.find?_cons, List.find?_cons, ih]

theorem lookup_writeF_other (p q : List String) (c : Content)
    (files : List (List String × Content)) (h : ¬ q = p) :
    lookupFile (writeF p c files) q = lookupFile files q := by
  have hpq : (p == q) = false := beq_eq_false_iff_ne.mpr (fun hh => h hh.symm)
  unfold lookupFile writeF
  rw [List.find?_cons, show ((p, c).1 == q) = (p == q) from rfl, hpq,
    find?_filter_ne p q files hpq]

theorem wfsegs_subset {l m : List String} (h : WFsegs m) (hsub : l ⊆ m) : WFsegs l :=
  fun t ht => h t (hsub ht)

theorem mem_globListing (fs : FS) (base : List String) (dot : Bool) (s : String) :
    s ∈ globListing fs base dot ↔
      ∃ p c rel, (p, c) ∈ fs.files ∧ relUnder base p = some rel ∧
        globMatch dot rel = true ∧ s = joinSegs rel := by
  unfold globListing globFile
  rw [List.mem_filterMap]
  constructor
  · rintro ⟨kv, hkv, hf⟩
    rcases hrel : relUnder base kv.1 with _ | rel
    · rw [hrel] at hf; simp at hf
    · rw [hrel] at hf
      by_cases hg : globMatch dot rel = true
      · simp only [hg, if_true] at hf
        refine ⟨kv.1, kv.2, rel, ?_, hrel, hg, (Option.some.inj hf).symm⟩
        simpa using hkv
      · simp [hg] at hf
  · rintro ⟨p, c, rel, hmem, hrel, hg, rfl⟩
    refine ⟨(p, c), hmem, ?_⟩
    show (match relUnder base p with
      | some rel => if globMatch dot rel then some (joinSegs rel) else none
      | none => none) = some (joinSegs rel)
    rw [hrel]
    simp [hg]

theorem globMatch_true {dot : Bool} {rel : List String} (h : globMatch dot rel = true) :
    ∃ name, rel.getLast? = some name ∧ containsDot name = true := by
  unfold globMatch at h
  rcases hl : rel.getLast? with _ | name
  · rw [hl] at h; simp at h
  · rw [hl] at h
    simp only [Bool.and_eq_true] at h
    exact ⟨name, rfl, h.2⟩

theorem globListing_basename (fs : FS) (base : List String) (dot : Bool)
    (hwf : ∀ kv ∈ fs.files, WFsegs kv.1) :
    ∀ s ∈ globListing fs base dot, containsDot (basenameStr s) = true := by
  intro s hs
  rcases (mem_globListing fs base dot s).mp hs with ⟨p, c, rel, hmem, hrel, hg, rfl⟩
  rcases globMatch_true hg with ⟨name, hlast, hdot⟩
  have hreldrop := (relUnder_some hrel).1
  have hrelwf : WFsegs rel := by
    apply wfsegs_subset (hwf (p, c) hmem)
    rw [hreldrop]
    exact List.drop_subset _ _
  have hne : rel ≠ [] := by
    intro hh; rw [hh] at hlast; simp at hlast
  have hname : name = rel.getLast hne := by
    have := List.getLast?_eq_getLast rel hne
    rw [this] at hlast
    exact (Option.some.inj hlast).symm
  have hsplit : rel.dropLast ++ [name] = rel := by
    rw [hname]
    exact List.dropLast_append_getLast hne
  have hnamewf : '/' ∉ name.data := by
    have : name ∈ rel := by
      rw [← hsplit]; exact List.mem_append_right _ (List.mem_cons_self _ _)
    exact (hrelwf name this).2
  rw [← hsplit, basenameStr_join _ _ hnamewf]
  exact hdot

/-- C1: the specification claims readFile fails with the distinguishable
not-found kind on a missing file and with the wrapped StorageReadError kind on
any other failure.  The catch block of the source implements exactly that
mapping, but the promise returned inside the try block is never awaited, so a
rejection bypasses the catch and the caller receives the raw ENOENT error
instead of either documented kind; the error-mapping code is unreachable.
This theorem evaluates both the code as written (readFile) and the mapping the
dead catch block documents (readFileIntended) at the failing input. -/
theorem readFile_missing_raw_enoent :
    readFile fs0 "missing.txt" = Except.error (JsError.fsError "ENOENT") ∧
    readFileIntended fs0 "missing.txt"
      = Except.error
          (JsError.simpleError "[Disk Storage] File \"missing.txt\" not found") ∧
    JsError.fsError "ENOENT"
      ≠ JsError.simpleError "[Disk Storage] File \"missing.txt\" not found" := by
  refine ⟨rfl, rfl, ?_⟩
  decide

/-- C2: a read after an upsert of the same logical path returns exactly the
written content, and the upsert has created every missing ancestor directory
of the file. -/
theorem upsertFile_readFile_roundtrip (fs : FS) (p : String) (c : Content)
    (recordRevision : Bool) (h : ∀ t ∈ segsOf p, ¬ t = "..") :
    readFile (upsertFile fs p c recordRevision) p = Except.ok c ∧
    ∀ d ∈ prefixesOf (resolvePath fs p).dropLast,
      dirExists (upsertFile fs p c recordRevision) d = true := by
  constructor
  · have hl : lookupFile (upsertFile fs p c recordRevision).files
        (resolvePath (upsertFile fs p c recordRevision) p) = some c := by
      show lookupFile (writeF (resolvePath fs p) c fs.files) (resolvePath fs p) = some c
      exact lookup_writeF_same _ _ _
    unfold readFile fsRead
    rw [hl]
  · intro d hd
    have hmem : d ∈ (upsertFile fs p c recordRevision).dirs := by
      show d ∈ prefixesOf (resolvePath fs p).dropLast ++ fs.dirs
      exact List.mem_append_left _ hd
    unfold dirExists
    rw [contains_of_mem hmem, Bool.true_or]

/-- Witness for the round trip at a concrete path and content. -/
theorem upsertFile_readFile_roundtrip_witness :
    readFile (upsertFile fs0 "a/b.txt" (Content.bytes [7]) false) "a/b.txt"
      = Except.ok (Content.bytes [7]) ∧
    ∀ d ∈ prefixesOf (resolvePath fs0 "a/b.txt").dropLast,
      dirExists (upsertFile fs0 "a/b.txt" (Content.bytes [7]) false) d = true :=
  upsertFile_readFile_roundtrip fs0 "a/b.txt" (Content.bytes [7]) false (by decide)

/-- C3 counterexample: an upsert with recordRevision set to true on a store
with no ledger leaves listRevisions of the enclosing prefix empty, because the
body of upsertFile never uses the flag and appends no FileRevision entry. -/
theorem upsertFile_recordRevision_ignored :
    listRevisions (upsertFile fs0 "bots/b1/f.txt" (Content.bytes [7]) true)
      "bots/b1" = [] := rfl

/-- C3 amended: upsertFile ignores the recordRevision flag entirely, so an
upsert of any file other than the ledger document itself leaves every revision
listing unchanged (and in particular still empty when no ledger exists). -/
theorem upsertFile_preserves_listRevisions (fs : FS) (p : String) (c : Content)
    (pathPrefix : String)
    (h : ¬ resolvePath fs (pathJoinStr pathPrefix "revisions.json")
        = resolvePath fs p) :
    listRevisions (upsertFile fs p c true) pathPrefix
      = listRevisions fs pathPrefix := by
  have heq : readFile (upsertFile fs p c true) (pathJoinStr pathPrefix "revisions.json")
      = readFile fs (pathJoinStr pathPrefix "revisions.json") := by
    unfold readFile fsRead
    have hl : lookupFile (upsertFile fs p c true).files
        (resolvePath (upsertFile fs p c true) (pathJoinStr pathPrefix "revisions.json"))
        = lookupFile fs.files (resolvePath fs (pathJoinStr pathPrefix "revisions.json")) := by
      show lookupFile (writeF (resolvePath fs p) c fs.files)
          (resolvePath fs (pathJoinStr pathPrefix "revisions.json"))
        = lookupFile fs.files (resolvePath fs (pathJoinStr pathPrefix "revisions.json"))
      exact lookup_writeF_other _ _ _ _ h
    rw [hl]
  unfold listRevisions
  rw [heq]

/-- Witness: an upsert with the flag set leaves an existing ledger listing
unchanged. -/
theorem upsertFile_preserves_listRevisions_witness :
    listRevisions (upsertFile fsLedger "x/f.txt" (Content.bytes [1]) true) "bots/b1"
      = listRevisions fsLedger "bots/b1" :=
  upsertFile_preserves_listRevisions fsLedger "x/f.txt" (Content.bytes [1])
    "bots/b1" (by decide)

/-- C5 counterexample: resolvePath performs no containment check and a dot-dot
segment climbs out of the store root: the logical path ../escape resolves to
home/escape, which is not inside the root home/proj. -/
theorem resolvePath_escapes_root :
    resolvePath fs0 "../escape" = ["home", "escape"] ∧
    fs0.projectLocation.isPrefixOf (resolvePath fs0 "../escape") = false := by
  refine ⟨rfl, rfl⟩

/-- C5 amended: resolution normalizes dot and dot-dot segments with the
path.resolve algorithm but rejects nothing; a relative logical path free of
dot-dot segments and with at least one real segment resolves strictly inside
the store root, while dot-dot segments or an absolute path can escape it. -/
theorem resolvePath_clean_stays_inside (fs : FS) (p : String)
    (hroot : normAbs fs.projectLocation = fs.projectLocation)
    (habs : isAbsolute p = false)
    (hdots : ∀ t ∈ segsOf p, ¬ t = "..")
    (hne : ¬ (segsOf p).filter (fun t => !(t == ".")) = []) :
    fs.projectLocation.isPrefixOf (resolvePath fs p) = true ∧
    ¬ resolvePath fs p = fs.projectLocation := by
  have hres : resolvePath fs p
      = fs.projectLocation ++ (segsOf p).filter (fun t => !(t == ".")) :=
    resolveFrom_no_dotdot _ _ hroot habs hdots
  constructor
  · rw [hres]; exact isPrefixOf_append _ _
  · rw [hres]
    intro hh
    have hlen := congrArg List.length hh
    rw [List.length_append] at hlen
    have : ((segsOf p).filter (fun t => !(t == "."))).length = 0 := by omega
    exact hne (List.length_eq_zero.mp this)

/-- Witness: a clean relative path lands strictly inside the root. -/
theorem resolvePath_clean_stays_inside_witness :
    fs0.projectLocation.isPrefixOf (resolvePath fs0 "sub/f.txt") = true ∧
    ¬ resolvePath fs0 "sub/f.txt" = fs0.projectLocation :=
  resolvePath_clean_stays_inside fs0 "sub/f.txt" (by decide) (by decide)
    (by decide) (by decide)

/-- C6: directoryListing absorbs a missing folder into an empty listing,
propagates an unreadable folder as the wrapping VError, and swallows a glob
evaluation failure into an empty listing. -/
theorem directoryListing_error_handling (fs : FS) (folder : String) (b : Bool) :
    (dirExists fs (resolveFrom fs.projectLocation folder) = false →
      directoryListing fs folder b = Except.ok []) ∧
    (dirExists fs (resolveFrom fs.projectLocation folder) = true →
      fs.unreadableDirs.contains (resolveFrom fs.projectLocation folder) = true →
      directoryListing fs folder b
        = Except.error (JsError.verror (JsError.fsError "EACCES")
            ("[Disk Storage] No read access to directory \"" ++ folder ++ "\""))) ∧
    (dirExists fs (resolveFrom fs.projectLocation folder) = true →
      fs.unreadableDirs.contains (resolveFrom fs.projectLocation folder) = false →
      fs.globError = true →
      directoryListing fs folder b = Except.ok []) := by
  refine ⟨?_, ?_, ?_⟩
  · intro h1
    unfold directoryListing
    rw [if_neg (by simp [h1])]
  · intro h1 h2
    unfold directoryListing
    rw [if_pos (by rw [h1]), if_pos (by rw [h2])]
  · intro h1 h2 h3
    unfold directoryListing
    rw [if_pos (by rw [h1]), if_neg (by rw [h2]; simp), if_pos (by rw [h3])]

/-- Witness: a missing folder yields an empty listing and an unreadable one
yields the wrapped access error. -/
theorem directoryListing_error_handling_witness :
    directoryListing fs0 "nope" false = Except.ok [] ∧
    directoryListing fsUnreadable "locked" true
      = Except.error (JsError.verror (JsError.fsError "EACCES")
          ("[Disk Storage] No read access to directory \"" ++ "locked" ++ "\"")) :=
  ⟨(directoryListing_error_handling fs0 "nope" false).1 (by decide),
   (directoryListing_error_handling fsUnreadable "locked" true).2.1
     (by decide) (by decide)⟩

/-- C8: listRevisions returns the empty sequence when the ledger document is
absent or fails to parse, and returns the deserialized entries in stored order
when a well-formed ledger exists. -/
theorem listRevisions_ledger_handling (fs : FS) (pathPrefix : String) :
    (lookupFile fs.files (resolvePath fs (pathJoinStr pathPrefix "revisions.json"))
        = none → listRevisions fs pathPrefix = []) ∧
    (∀ c, lookupFile fs.files (resolvePath fs (pathJoinStr pathPrefix "revisions.json"))
        = some c → jsonParseRevisions c = none → listRevisions fs pathPrefix = []) ∧
    (∀ revs c,
      lookupFile fs.files (resolvePath fs (pathJoinStr pathPrefix "revisions.json"))
        = some c → jsonParseRevisions c = some revs →
      listRevisions fs pathPrefix = revs) := by
  refine ⟨?_, ?_, ?_⟩
  · intro h
    unfold listRevisions readFile fsRead
    rw [h]
  · intro c h hp
    unfold listRevisions readFile fsRead
    rw [h]
    show (match jsonParseRevisions c with | some revs => revs | none => []) = []
    rw [hp]
  · intro revs c h hp
    unfold listRevisions readFile fsRead
    rw [h]
    show (match jsonParseRevisions c with | some revs => revs | none => []) = revs
    rw [hp]

/-- Witness: a stored ledger is returned as its entries and a missing ledger
yields the empty sequence. -/
theorem listRevisions_ledger_handling_witness :
    listRevisions fsLedger "bots/b1" = [rev0] ∧ listRevisions fs0 "bots/b1" = [] :=
  ⟨(listRevisions_ledger_handling fsLedger "bots/b1").2.2 [rev0]
      (Content.jsonRevisions [rev0]) rfl rfl,
   (listRevisions_ledger_handling fs0 "bots/b1").1 rfl⟩

/-- C9: deleteRevision rejects with the plain not-implemented Error and
changes no state, for every input. -/
theorem deleteRevision_not_implemented (fs : FS) (filePath revision : String) :
    deleteRevision fs filePath revision
      = (fs, Except.error (JsError.simpleError "Method not implemented.")) := rfl

theorem splitRaw_groups_no_slash (l : List Char) : ∀ g ∈ splitRaw l, '/' ∉ g := by
  induction l with
  | nil =>
    intro g hg
    simp [splitRaw] at hg
    subst hg; simp
  | cons c cs ih =>
    intro g hg
    unfold splitRaw at hg
    by_cases hc : c = '/'
    · rw [if_pos hc] at hg
      rcases List.mem_cons.mp hg with h | h
      · subst h; simp
      · exact ih g h
    · rw [if_neg hc] at hg
      rcases List.mem_cons.mp hg with h | h
      · subst h
        intro hmem
        rcases List.mem_cons.mp hmem with h' | h'
        · exact hc h'.symm
        · cases hs : splitRaw cs with
          | nil => exact absurd hs (splitRaw_ne_nil cs)
          | cons a as =>
            rw [hs] at h'
            simp only [List.headD_cons] at h'
            exact ih a (by rw [hs]; exact List.mem_cons_self _ _) h'
      · cases hs : splitRaw cs with
        | nil => exact absurd hs (splitRaw_ne_nil cs)
        | cons a as =>
          rw [hs] at h
          simp only [List.tail_cons] at h
          exact ih g (by rw [hs]; exact List.mem_cons_of_mem _ h)

theorem wf_segsOf (s : String) : WFsegs (segsOf s) := by
  intro t ht
  unfold segsOf at ht
  obtain ⟨hmem, hne⟩ := List.mem_filter.mp ht
  obtain ⟨g, hg, rfl⟩ := List.mem_map.mp hmem
  refine ⟨?_, ?_⟩
  · intro hh
    rw [hh] at hne
    simp at hne
  · show '/' ∉ g
    exact splitRaw_groups_no_slash s.data g hg

theorem wf_normAbs_of (l : List String) (h : WFsegs l) : WFsegs (normAbs l) :=
  fun t ht => h t (mem_normAbs ht)

theorem wf_resolveFrom (base : List String) (p : String) (hb : WFsegs base) :
    WFsegs (resolveFrom base p) := by
  unfold resolveFrom
  by_cases h : isAbsolute p = true
  · rw [if_pos h]; exact wf_normAbs_of _ (wf_segsOf p)
  · rw [if_neg h]
    apply wf_normAbs_of
    intro t ht
    rcases List.mem_append.mp ht with hm | hm
    · exact hb t hm
    · exact wf_segsOf p t hm

theorem wf_writeEntry (destR : List String) (hdest : WFsegs destR) (st : FS)
    (hst : ∀ kv ∈ st.files, WFsegs kv.1) (e : String × Content) :
    ∀ kv ∈ (writeEntry destR st e).files, WFsegs kv.1 := by
  intro kv hkv
  rcases List.mem_cons.mp hkv with h | h
  · subst h
    exact wf_resolveFrom destR e.1 hdest
  · exact hst kv (List.mem_of_mem_filter h)

theorem wf_foldl_writeEntry (destR : List String) (hdest : WFsegs destR)
    (entries : List (String × Content)) :
    ∀ st : FS, (∀ kv ∈ st.files, WFsegs kv.1) →
      ∀ kv ∈ (entries.foldl (writeEntry destR) st).files, WFsegs kv.1 := by
  induction entries with
  | nil => intro st hst; exact hst
  | cons e es ih =>
    intro st hst
    rw [List.foldl_cons]
    exact ih (writeEntry destR st e) (wf_writeEntry destR hdest st hst e)

/-- C10: directoryListing and the result listing of extractArchive both use
glob with the pattern **/*.* and without the dot option, so every listed file
has a dot somewhere in its base name, and a file on disk whose name carries no
dot is absent from the returned sequence. -/
theorem listing_requires_dotted_basename (fs : FS) (folder : String)
    (r : List String) (hwf : ∀ kv ∈ fs.files, WFsegs kv.1) :
    (directoryListing fs folder false = Except.ok r →
      (∀ s ∈ r, containsDot (basenameStr s) = true) ∧
      (∀ p c rel, (p, c) ∈ fs.files →
        relUnder (resolveFrom fs.projectLocation folder) p = some rel →
        containsDot (rel.getLastD "") = false → ¬ joinSegs rel ∈ r)) ∧
    (∀ entries destination fs2 L, WFsegs fs.cwd →
      extractArchive fs (Content.tarball entries) destination
        = Except.ok (fs2, L) →
      ∀ s ∈ L, containsDot (basenameStr s) = true) := by
  constructor
  · intro hok
    unfold directoryListing at hok
    by_cases h1 : dirExists fs (resolveFrom fs.projectLocation folder) = true
    · rw [if_pos h1] at hok
      by_cases h2 : fs.unreadableDirs.contains (resolveFrom fs.projectLocation folder)
          = true
      · rw [if_pos h2] at hok; cases hok
      · rw [if_neg h2] at hok
        by_cases h3 : fs.globError = true
        · rw [if_pos h3] at hok
          have hr : r = [] := (Except.ok.inj hok).symm
          subst hr
          exact ⟨fun s hs => absurd hs (List.not_mem_nil s),
            fun p c rel _ _ _ hmem => absurd hmem (List.not_mem_nil _)⟩
        · rw [if_neg h3] at hok
          have hr : r = globListing fs (resolveFrom fs.projectLocation folder) false :=
            (Except.ok.inj hok).symm
          subst hr
          refine ⟨globListing_basename fs _ false hwf, ?_⟩
          intro p c rel hmem hrel hfalse hin
          rcases (mem_globListing _ _ _ _).mp hin with
            ⟨p', c', rel', hmem', hrel', hg', heq⟩
          have hwrel : WFsegs rel := by
            apply wfsegs_subset (hwf (p, c) hmem)
            rw [(relUnder_some hrel).1]
            exact List.drop_subset _ _
          have hwrel' : WFsegs rel' := by
            apply wfsegs_subset (hwf (p', c') hmem')
            rw [(relUnder_some hrel').1]
            exact List.drop_subset _ _
          have hre : rel' = rel := joinSegs_inj hwrel' hwrel heq.symm
          subst hre
          rcases globMatch_true hg' with ⟨name, hlast, hdot⟩
          rw [List.getLastD_eq_getLast?, hlast] at hfalse
          simp only [Option.getD_some] at hfalse
          rw [hdot] at hfalse
          cases hfalse
    · rw [if_neg h1] at hok
      have hr : r = [] := (Except.ok.inj hok).symm
      subst hr
      exact ⟨fun s hs => absurd hs (List.not_mem_nil s),
        fun p c rel _ _ _ hmem => absurd hmem (List.not_mem_nil _)⟩
  · intro entries destination fs2 L hcwd hok
    unfold extractArchive at hok
    have hL : L = globListing
        (entries.foldl (writeEntry (resolveFrom fs.cwd destination))
          { fs with dirs := resolveFrom fs.cwd destination :: fs.dirs })
        (resolveFrom fs.cwd destination) false :=
      (congrArg Prod.snd (Except.ok.inj hok)).symm
    intro s hs
    rw [hL] at hs
    refine globListing_basename _ _ _ ?_ s hs
    apply wf_foldl_writeEntry _ (wf_resolveFrom _ _ hcwd)
    intro kv hkv
    exact hwf kv hkv

/-- Witness: under the directory d of fsX the extensionless file is absent
from the listing even though it is on disk. -/
theorem listing_requires_dotted_basename_witness :
    ¬ joinSegs ["noext"] ∈ (["y.txt"] : List String) :=
  ((listing_requires_dotted_basename fsX "d" ["y.txt"] (by decide)).1 rfl).2
    ["home", "proj", "d", "noext"] (Content.bytes [1]) ["noext"]
    (List.mem_cons_self _ _) rfl (by decide)

theorem filterMap_cons_some {a b2 : Type} (f : a → Option b2) (x : a) (l : List a)
    (y : b2) (h : f x = some y) :
    List.filterMap f (x :: l) = y :: List.filterMap f l := by
  rw [List.filterMap_cons, h]

/-- C4: discoverTrackableFolders returns exactly the set of top-level
directory names minus those owning an opt-out marker: on a tree with files
a/x.txt and b/y.txt and a marker file whose name lowercases to .noghost placed
at an arbitrary depth sub below b, the result is exactly a, independent of the
marker depth and of its case. -/
theorem discoverTrackableFolders_marker (sub : List String) (m : String)
    (c1 c2 c3 : Content)
    (hsub : ∀ t ∈ sub, ¬ t = "" ∧ '/' ∉ t.data ∧ ¬ t = "." ∧ ¬ t = "..")
    (hm : toLowerStr m = ".noghost")
    (hmne : ¬ m = "") (hmsl : '/' ∉ m.data)
    (hmdot : containsDot m = true) :
    discoverTrackableFolders (fsC4 sub m c1 c2 c3) "data" = ["a"] := by
  have hmd1 : ¬ m = "." := by
    intro hh; rw [hh] at hm; exact absurd hm (by decide)
  have hmd2 : ¬ m = ".." := by
    intro hh; rw [hh] at hm; exact absurd hm (by decide)
  have hwfJ : WFsegs ("b" :: (sub ++ [m])) := by
    intro t ht
    rcases List.mem_cons.mp ht with h | h
    · subst h; exact ⟨by decide, by decide⟩
    · rcases List.mem_append.mp h with h2 | h2
      · exact ⟨(hsub t h2).1, (hsub t h2).2.1⟩
      · simp only [List.mem_singleton] at h2; subst h2; exact ⟨hmne, hmsl⟩
  have hdots : ∀ t ∈ ("b" :: (sub ++ [m])), ¬ t = "." ∧ ¬ t = ".." := by
    intro t ht
    rcases List.mem_cons.mp ht with h | h
    · subst h; exact ⟨by decide, by decide⟩
    · rcases List.mem_append.mp h with h2 | h2
      · exact ⟨(hsub t h2).2.2.1, (hsub t h2).2.2.2⟩
      · simp only [List.mem_singleton] at h2; subst h2; exact ⟨hmd1, hmd2⟩
  have hconc : "b" :: (sub ++ [m]) = ("b" :: sub) ++ [m] := by simp
  have hgm : globMatch true ("b" :: (sub ++ [m])) = true := by
    unfold globMatch
    have hlast : ("b" :: (sub ++ [m])).getLast? = some m := by
      rw [hconc]; exact List.getLast?_concat _
    rw [hlast]
    simp [hmdot]
  have hf1 : globFile ["home", "proj", "data"] true
      (["home", "proj", "data", "a", "x.txt"], c1) = some "a/x.txt" := rfl
  have hf2 : globFile ["home", "proj", "data"] true
      (["home", "proj", "data", "b", "y.txt"], c2) = some "b/y.txt" := rfl
  have hf3 : globFile ["home", "proj", "data"] true
      (["home", "proj", "data", "b"] ++ sub ++ [m], c3)
      = some (joinSegs ("b" :: (sub ++ [m]))) := by
    unfold globFile
    have hsh : (((["home", "proj", "data", "b"] ++ sub ++ [m], c3) :
        List String × Content)).1
        = ["home", "proj", "data"] ++ ("b" :: (sub ++ [m])) := by simp
    rw [hsh, relUnder_append]
    show (if globMatch true ("b" :: (sub ++ [m]))
        then some (joinSegs ("b" :: (sub ++ [m]))) else none)
      = some (joinSegs ("b" :: (sub ++ [m])))
    rw [if_pos hgm]
  have hglob : globListing (fsC4 sub m c1 c2 c3) ["home", "proj", "data"] true
      = ["a/x.txt", "b/y.txt", joinSegs ("b" :: (sub ++ [m]))] := by
    show List.filterMap (globFile ["home", "proj", "data"] true)
        [ (["home", "proj", "data", "a", "x.txt"], c1),
          (["home", "proj", "data", "b", "y.txt"], c2),
          (["home", "proj", "data", "b"] ++ sub ++ [m], c3) ]
      = ["a/x.txt", "b/y.txt", joinSegs ("b" :: (sub ++ [m]))]
    rw [filterMap_cons_some _ _ _ _ hf1, filterMap_cons_some _ _ _ _ hf2,
      filterMap_cons_some _ _ _ _ hf3, List.filterMap_nil]
  have hlist : directoryListing (fsC4 sub m c1 c2 c3) "data" true
      = Except.ok ["a/x.txt", "b/y.txt", joinSegs ("b" :: (sub ++ [m]))] := by
    unfold directoryListing
    rw [show resolveFrom (fsC4 sub m c1 c2 c3).projectLocation "data"
        = ["home", "proj", "data"] from rfl]
    rw [if_pos (show dirExists (fsC4 sub m c1 c2 c3) ["home", "proj", "data"]
        = true from rfl)]
    rw [if_neg (show ¬ ((fsC4 sub m c1 c2 c3).unreadableDirs.contains
        ["home", "proj", "data"] = true) from fun hcontr => Bool.false_ne_true hcontr)]
    rw [if_neg (show ¬ ((fsC4 sub m c1 c2 c3).globError = true) from
        fun hcontr => Bool.false_ne_true hcontr)]
    rw [hglob]
  unfold discoverTrackableFolders
  rw [hlist]
  show without
      (getBaseDirectories (fsC4 sub m c1 c2 c3)
        ["a/x.txt", "b/y.txt", joinSegs ("b" :: (sub ++ [m]))])
      (getBaseDirectories (fsC4 sub m c1 c2 c3)
        (["a/x.txt", "b/y.txt", joinSegs ("b" :: (sub ++ [m]))].filter
          (fun x => toLowerStr (basenameStr x) == ".noghost")))
    = ["a"]
  have hb3 : basenameStr (joinSegs ("b" :: (sub ++ [m]))) = m := by
    rw [hconc]; exact basenameStr_join _ _ hmsl
  have hfil : ["a/x.txt", "b/y.txt", joinSegs ("b" :: (sub ++ [m]))].filter
      (fun x => toLowerStr (basenameStr x) == ".noghost")
      = [joinSegs ("b" :: (sub ++ [m]))] := by
    rw [List.filter_cons, List.filter_cons, List.filter_cons, List.filter_nil]
    rw [if_neg (by decide), if_neg (by decide)]
    rw [hb3, hm, if_pos (by decide)]
  have hsegsJ : segsOf (joinSegs ("b" :: (sub ++ [m]))) = "b" :: (sub ++ [m]) :=
    segsOf_joinSegs _ hwfJ
  have habsJ : isAbsolute (joinSegs ("b" :: (sub ++ [m]))) = false :=
    isAbsolute_joinSegs "b" _ (by decide) (by decide)
  have hresJ : resolveFrom (fsC4 sub m c1 c2 c3).cwd (joinSegs ("b" :: (sub ++ [m])))
      = ["home", "proj"] ++ ("b" :: (sub ++ [m])) := by
    have h := resolveFrom_clean ["home", "proj"] (joinSegs ("b" :: (sub ++ [m])))
      (by decide) habsJ (by rw [hsegsJ]; exact hdots)
    rw [show (fsC4 sub m c1 c2 c3).cwd = ["home", "proj"] from rfl, h, hsegsJ]
  have hrel3 : relativeFromPL (fsC4 sub m c1 c2 c3) (joinSegs ("b" :: (sub ++ [m])))
      = joinSegs ("b" :: (sub ++ [m])) := by
    unfold relativeFromPL
    rw [hresJ, show (fsC4 sub m c1 c2 c3).projectLocation = ["home", "proj"] from rfl,
      commonPrefixLen_append, List.drop_left]
    simp
  have hrel1 : relativeFromPL (fsC4 sub m c1 c2 c3) "a/x.txt" = "a/x.txt" := rfl
  have hrel2 : relativeFromPL (fsC4 sub m c1 c2 c3) "b/y.txt" = "b/y.txt" := rfl
  have hdir3 : dirnameStr (joinSegs ("b" :: (sub ++ [m]))) = joinSegs ("b" :: sub) := by
    rw [hconc]
    exact dirnameStr_join ("b" :: sub) m (by simp) hmsl
  have hfirst3 : firstSegStr (joinSegs ("b" :: sub)) = "b" :=
    firstSegStr_join "b" sub (by decide)
  have hgb1 : getBaseDirectories (fsC4 sub m c1 c2 c3)
      ["a/x.txt", "b/y.txt", joinSegs ("b" :: (sub ++ [m]))] = ["a", "b"] := by
    unfold getBaseDirectories
    simp only [List.map_cons, List.map_nil, hrel1, hrel2, hrel3, hdir3, hfirst3]
    decide
  have hgb2 : getBaseDirectories (fsC4 sub m c1 c2 c3)
      [joinSegs ("b" :: (sub ++ [m]))] = ["b"] := by
    unfold getBaseDirectories
    simp only [List.map_cons, List.map_nil, hrel3, hdir3, hfirst3]
    rfl
  rw [hfil, hgb1, hgb2]
  decide

/-- Witness: a marker named .NoGhost one level deep under b excludes b. -/
theorem discoverTrackableFolders_marker_witness :
    discoverTrackableFolders
      (fsC4 ["deep"] ".NoGhost" (Content.bytes [1]) (Content.bytes [2])
        (Content.bytes [])) "data" = ["a"] :=
  discoverTrackableFolders_marker ["deep"] ".NoGhost" _ _ _
    (by decide) (by decide) (by decide) (by decide) (by decide)

theorem mem_writeF {kv : List String × Content} {p : List String} {c : Content}
    {files : List (List String × Content)} (h : kv ∈ writeF p c files) :
    kv = (p, c) ∨ kv ∈ files := by
  rcases List.mem_cons.mp h with h | h
  · exact Or.inl h
  · exact Or.inr (List.mem_of_mem_filter h)

theorem globMatch_of_parts (rel : List String) (hne : ¬ rel = [])
    (hg : ∀ t ∈ rel, startsWithDot t = false)
    (hd : containsDot (rel.getLastD "") = true) :
    globMatch false rel = true := by
  have hlast : rel.getLast? = some (rel.getLast hne) :=
    List.getLast?_eq_getLast rel hne
  have hnamed : rel.getLastD "" = rel.getLast hne := by
    rw [List.getLastD_eq_getLast?, hlast]
    rfl
  unfold globMatch
  rw [hlast]
  have hall : rel.dropLast.all (fun t => false || !(startsWithDot t)) = true := by
    rw [List.all_eq_true]
    intro t ht
    simp [hg t (List.dropLast_subset _ ht)]
  have hnd : startsWithDot (rel.getLast hne) = false :=
    hg _ (List.getLast_mem hne)
  have hcd : containsDot (rel.getLast hne) = true := by
    rw [← hnamed]; exact hd
  simp only [hall, hnd, hcd]
  decide

/-- C7 counterexample: archiving the two files noext and y.txt that exist
under srcf and extracting the archive writes both files into the destination,
but the listing extractArchive returns (glob with the pattern **/*.*) omits
the extensionless file, so the result is not the archived pair of paths. -/
theorem createArchive_extract_cex :
    c7result = some ["y.txt"] ∧ ¬ "noext" ∈ (["y.txt"] : List String) := by
  exact ⟨by decide, by decide⟩

/-- C7 amended: for two distinct source paths that exist under the folder,
whose names are matched by the listing pattern (no component starts with a
dot and each base name contains a dot), archiving and then extracting into a
fresh destination yields a listing holding exactly the two paths, and the
extracted byte content of each equals its pre-archive content.  Paths failing
the pattern are still extracted but are omitted from the returned listing. -/
theorem createArchive_extractArchive_roundtrip
    (fs : FS) (fileName folder destination p1 p2 : String) (c1 c2 : Content)
    (habs1 : isAbsolute p1 = false) (habs2 : isAbsolute p2 = false)
    (hn1 : joinSegs (segsOf p1) = p1) (hn2 : joinSegs (segsOf p2) = p2)
    (hne1 : ¬ segsOf p1 = []) (hne2 : ¬ segsOf p2 = [])
    (hg1 : ∀ t ∈ segsOf p1, startsWithDot t = false)
    (hg2 : ∀ t ∈ segsOf p2, startsWithDot t = false)
    (hd1 : containsDot ((segsOf p1).getLastD "") = true)
    (hd2 : containsDot ((segsOf p2).getLastD "") = true)
    (hdiff : ¬ segsOf p1 = segsOf p2)
    (hs1 : lookupFile fs.files (resolveFrom (resolveFrom fs.cwd folder) p1) = some c1)
    (hs2 : lookupFile fs.files (resolveFrom (resolveFrom fs.cwd folder) p2) = some c2)
    (hfresh : ∀ kv ∈ fs.files, relUnder (resolveFrom fs.cwd destination) kv.1 = none)
    (htar : relUnder (resolveFrom fs.cwd destination) (resolveFrom fs.cwd fileName)
        = none) :
    ∃ fs1 fs2 : FS, ∃ L : List String,
      createArchive fs fileName folder [p1, p2] = Except.ok (fs1, fileName) ∧
      lookupFile fs1.files (resolveFrom fs.cwd fileName)
        = some (Content.tarball [(p1, c1), (p2, c2)]) ∧
      extractArchive fs1 (Content.tarball [(p1, c1), (p2, c2)]) destination
        = Except.ok (fs2, L) ∧
      (∀ s, s ∈ L ↔ (s = p1 ∨ s = p2)) ∧
      lookupFile fs2.files (resolveFrom (resolveFrom fs.cwd destination) p1)
        = some c1 ∧
      lookupFile fs2.files (resolveFrom (resolveFrom fs.cwd destination) p2)
        = some c2 := by
  have hcl1 : ∀ t ∈ segsOf p1, ¬ t = "." ∧ ¬ t = ".." := by
    intro t ht
    constructor
    · intro hh
      have := hg1 t ht
      rw [hh] at this
      exact absurd this (by decide)
    · intro hh
      have := hg1 t ht
      rw [hh] at this
      exact absurd this (by decide)
  have hcl2 : ∀ t ∈ segsOf p2, ¬ t = "." ∧ ¬ t = ".." := by
    intro t ht
    constructor
    · intro hh
      have := hg2 t ht
      rw [hh] at this
      exact absurd this (by decide)
    · intro hh
      have := hg2 t ht
      rw [hh] at this
      exact absurd this (by decide)
  have ht1 : resolveFrom (resolveFrom fs.cwd destination) p1
      = resolveFrom fs.cwd destination ++ segsOf p1 :=
    resolveFrom_clean _ p1 (normAbs_resolveFrom _ _) habs1 hcl1
  have ht2 : resolveFrom (resolveFrom fs.cwd destination) p2
      = resolveFrom fs.cwd destination ++ segsOf p2 :=
    resolveFrom_clean _ p2 (normAbs_resolveFrom _ _) habs2 hcl2
  have htne : ¬ resolveFrom (resolveFrom fs.cwd destination) p1
      = resolveFrom (resolveFrom fs.cwd destination) p2 := by
    rw [ht1, ht2]
    intro hh
    exact hdiff (List.append_cancel_left hh)
  have htne' : ¬ resolveFrom (resolveFrom fs.cwd destination) p2
      = resolveFrom (resolveFrom fs.cwd destination) p1 :=
    fun hh => htne hh.symm
  have hgm1 : globMatch false (segsOf p1) = true :=
    globMatch_of_parts _ hne1 hg1 hd1
  have hgm2 : globMatch false (segsOf p2) = true :=
    globMatch_of_parts _ hne2 hg2 hd2
  have hcoll : collectEntries fs (resolveFrom fs.cwd folder) [p1, p2]
      = some [(p1, c1), (p2, c2)] := by
    simp only [collectEntries, hs1, hs2]
  have hcreate : createArchive fs fileName folder [p1, p2]
      = Except.ok ({ fs with files := (writeF (resolveFrom fs.cwd fileName)
          (Content.tarball [(p1, c1), (p2, c2)]) fs.files) }, fileName) := by
    unfold createArchive
    rw [hcoll]
  have hext : extractArchive { fs with files := (writeF (resolveFrom fs.cwd fileName)
      (Content.tarball [(p1, c1), (p2, c2)]) fs.files) }
      (Content.tarball [(p1, c1), (p2, c2)]) destination
      = Except.ok (writeEntry (resolveFrom fs.cwd destination)
      (writeEntry (resolveFrom fs.cwd destination)
        { fs with
          files := (writeF (resolveFrom fs.cwd fileName)
            (Content.tarball [(p1, c1), (p2, c2)]) fs.files),
          dirs := (resolveFrom fs.cwd destination :: fs.dirs) }
        (p1, c1))
      (p2, c2),
        globListing
          (writeEntry (resolveFrom fs.cwd destination)
        (writeEntry (resolveFrom fs.cwd destination)
          { fs with
            files := (writeF (resolveFrom fs.cwd fileName)
              (Content.tarball [(p1, c1), (p2, c2)]) fs.files),
            dirs := (resolveFrom fs.cwd destination :: fs.dirs) }
          (p1, c1))
        (p2, c2))
          (resolveFrom fs.cwd destination) false) := rfl
  refine ⟨{ fs with files := (writeF (resolveFrom fs.cwd fileName)
      (Content.tarball [(p1, c1), (p2, c2)]) fs.files) },
    writeEntry (resolveFrom fs.cwd destination)
      (writeEntry (resolveFrom fs.cwd destination)
        { fs with
          files := (writeF (resolveFrom fs.cwd fileName)
            (Content.tarball [(p1, c1), (p2, c2)]) fs.files),
          dirs := (resolveFrom fs.cwd destination :: fs.dirs) }
        (p1, c1))
      (p2, c2),
    globListing
      (writeEntry (resolveFrom fs.cwd destination)
        (writeEntry (resolveFrom fs.cwd destination)
          { fs with
            files := (writeF (resolveFrom fs.cwd fileName)
              (Content.tarball [(p1, c1), (p2, c2)]) fs.files),
            dirs := (resolveFrom fs.cwd destination :: fs.dirs) }
          (p1, c1))
        (p2, c2))
      (resolveFrom fs.cwd destination) false,
    hcreate, lookup_writeF_same _ _ _, hext, ?_, ?_, ?_⟩
  · -- membership characterization of the extraction listing
    intro s
    constructor
    · intro hs
      obtain ⟨p, c, rel, hmemf, hrel, hgmm, hseq⟩ :=
        (mem_globListing _ _ _ _).mp hs
      have hmemf' : (p, c) ∈ writeF (resolveFrom (resolveFrom fs.cwd destination) p2) c2
          (writeF (resolveFrom (resolveFrom fs.cwd destination) p1) c1
            (writeF (resolveFrom fs.cwd fileName)
              (Content.tarball [(p1, c1), (p2, c2)]) fs.files)) := hmemf
      rcases mem_writeF hmemf' with h | hmem2
      · have hp : p = resolveFrom (resolveFrom fs.cwd destination) p2 :=
          congrArg Prod.fst h
        rw [hp, ht2, relUnder_append] at hrel
        have hrel2 : rel = segsOf p2 := (Option.some.inj hrel).symm
        right
        rw [hseq, hrel2, hn2]
      · rcases mem_writeF hmem2 with h | hmem3
        · have hp : p = resolveFrom (resolveFrom fs.cwd destination) p1 :=
            congrArg Prod.fst h
          rw [hp, ht1, relUnder_append] at hrel
          have hrel1 : rel = segsOf p1 := (Option.some.inj hrel).symm
          left
          rw [hseq, hrel1, hn1]
        · rcases mem_writeF hmem3 with h | hmem4
          · have hp : p = resolveFrom fs.cwd fileName := congrArg Prod.fst h
            rw [hp, htar] at hrel
            cases hrel
          · rw [hfresh (p, c) hmem4] at hrel
            cases hrel
    · intro hs
      apply (mem_globListing _ _ _ _).mpr
      rcases hs with h | h
      · refine ⟨resolveFrom (resolveFrom fs.cwd destination) p1, c1, segsOf p1,
          ?_, ?_, hgm1, by rw [h, hn1]⟩
        · show (resolveFrom (resolveFrom fs.cwd destination) p1, c1)
            ∈ writeF (resolveFrom (resolveFrom fs.cwd destination) p2) c2
              (writeF (resolveFrom (resolveFrom fs.cwd destination) p1) c1
                (writeF (resolveFrom fs.cwd fileName)
                  (Content.tarball [(p1, c1), (p2, c2)]) fs.files))
          apply List.mem_cons_of_mem
          apply List.mem_filter.mpr
          refine ⟨List.mem_cons_self _ _, ?_⟩
          simp [beq_eq_false_iff_ne.mpr htne]
        · rw [ht1]
          exact relUnder_append _ _
      · refine ⟨resolveFrom (resolveFrom fs.cwd destination) p2, c2, segsOf p2,
          ?_, ?_, hgm2, by rw [h, hn2]⟩
        · show (resolveFrom (resolveFrom fs.cwd destination) p2, c2)
            ∈ writeF (resolveFrom (resolveFrom fs.cwd destination) p2) c2
              (writeF (resolveFrom (resolveFrom fs.cwd destination) p1) c1
                (writeF (resolveFrom fs.cwd fileName)
                  (Content.tarball [(p1, c1), (p2, c2)]) fs.files))
          exact List.mem_cons_self _ _
        · rw [ht2]
          exact relUnder_append _ _
  · show lookupFile
        (writeF (resolveFrom (resolveFrom fs.cwd destination) p2) c2
          (writeF (resolveFrom (resolveFrom fs.cwd destination) p1) c1
            (writeF (resolveFrom fs.cwd fileName)
              (Content.tarball [(p1, c1), (p2, c2)]) fs.files)))
        (resolveFrom (resolveFrom fs.cwd destination) p1) = some c1
    rw [lookup_writeF_other _ _ _ _ htne]
    exact lookup_writeF_same _ _ _
  · show lookupFile
        (writeF (resolveFrom (resolveFrom fs.cwd destination) p2) c2
          (writeF (resolveFrom (resolveFrom fs.cwd destination) p1) c1
            (writeF (resolveFrom fs.cwd fileName)
              (Content.tarball [(p1, c1), (p2, c2)]) fs.files)))
        (resolveFrom (resolveFrom fs.cwd destination) p2) = some c2
    exact lookup_writeF_same _ _ _

/-- Witness: the round trip at two dotted paths with concrete contents. -/
theorem createArchive_extractArchive_roundtrip_witness :
    ∃ fs1 fs2 : FS, ∃ L : List String,
      createArchive fsC7w "arch.tgz" "srcf" ["a/x.txt", "y.txt"]
        = Except.ok (fs1, "arch.tgz") ∧
      lookupFile fs1.files (resolveFrom fsC7w.cwd "arch.tgz")
        = some (Content.tarball
            [("a/x.txt", Content.bytes [3]), ("y.txt", Content.bytes [4])]) ∧
      extractArchive fs1
        (Content.tarball
          [("a/x.txt", Content.bytes [3]), ("y.txt", Content.bytes [4])]) "dest"
        = Except.ok (fs2, L) ∧
      (∀ s, s ∈ L ↔ (s = "a/x.txt" ∨ s = "y.txt")) ∧
      lookupFile fs2.files (resolveFrom (resolveFrom fsC7w.cwd "dest") "a/x.txt")
        = some (Content.bytes [3]) ∧
      lookupFile fs2.files (resolveFrom (resolveFrom fsC7w.cwd "dest") "y.txt")
        = some (Content.bytes [4]) :=
  createArchive_extractArchive_roundtrip fsC7w "arch.tgz" "srcf" "dest"
    "a/x.txt" "y.txt" (Content.bytes [3]) (Content.bytes [4])
    (by decide) (by decide) (by decide) (by decide) (by decide) (by decide)
    (by decide) (by decide) (by decide) (by decide) (by decide)
    rfl rfl (by decide) (by decide)

end DiskDriver
